import Mathlib

/-!
Verification of the recurring-date-picker core: a shallow embedding of the
occurrence generator (`generateOccurrences`), the nth-weekday-of-month helper
(`getNthWeekdayInMonth`) and the recurrence-rule data model from
`src/unnamed/part_000`, together with theorems settling the spec's claims.

Dates are modelled as timezone-less calendar date-times: a civil (year, month,
day) triple plus an opaque time-of-day component `tod` (JS `Date` keeps a time
component; `date-fns` calendar arithmetic preserves it, and the generator's
`currentDate > rule.endDate` comparison is a full date-time comparison).
Year is an integer, month is 1-12, day is 1-based.  Comparison of two values
is lexicographic on (year, month, day, tod), which on in-range civil dates
agrees with JS timestamp order.  Weekday follows JS `getDay` (0 = Sunday),
computed from the standard civil-to-day-count conversion (1970-01-01 is a
Thursday, weekday 4).
-/

namespace Recur

/-- A calendar date-time: civil year/month/day plus a time-of-day component. -/
structure DateT where
  year : Int
  month : Nat
  day : Nat
  tod : Nat
deriving DecidableEq, Repr

/-- Gregorian leap-year rule (as used by JS `Date`). -/
def isLeap (y : Int) : Bool :=
  decide (y % 4 = 0 ∧ (¬ y % 100 = 0 ∨ y % 400 = 0))

/-- Number of days in month `m` of year `y` (months are 1-based).  The
catch-all branch is unreachable for in-range months. -/
def monthLength (y : Int) (m : Nat) : Nat :=
  match m with
  | 1 => 31
  | 2 => if isLeap y then 29 else 28
  | 3 => 31
  | 4 => 30
  | 5 => 31
  | 6 => 30
  | 7 => 31
  | 8 => 31
  | 9 => 30
  | 10 => 31
  | 11 => 30
  | 12 => 31
  | _ => 30

/-- Days since 1970-01-01 of the civil date (y, m, d); standard era-based
conversion (floor division throughout; `/` and `%` on `Int` are the
floor-convention operations for these positive divisors). -/
def daysFromCivil (y : Int) (m d : Nat) : Int :=
  let yShift : Int := if m ≤ 2 then y - 1 else y
  let era : Int := yShift / 400
  let yoe : Int := yShift - era * 400
  let mp : Nat := (m + 9) % 12
  let doy : Int := ((153 * mp + 2) / 5 : Nat) + (d : Int) - 1
  let doe : Int := yoe * 365 + yoe / 4 - yoe / 100 + doy
  era * 146097 + doe - 719468

/-- JS `getDay`: weekday of the date, 0 = Sunday .. 6 = Saturday. -/
def DateT.getDay (dt : DateT) : Nat :=
  ((daysFromCivil dt.year dt.month dt.day + 4) % 7).toNat

/-- JS `<` on `Date` values: lexicographic date-time comparison (equals
timestamp comparison on in-range civil dates). -/
def DateT.ltb (a b : DateT) : Bool :=
  decide (a.year < b.year ∨ (a.year = b.year ∧ (a.month < b.month ∨ (a.month = b.month ∧
    (a.day < b.day ∨ (a.day = b.day ∧ a.tod < b.tod))))))

/-- JS `toDateString` equality: same calendar date, time-of-day ignored. -/
def sameCalendarDate (a b : DateT) : Bool :=
  decide (a.year = b.year ∧ a.month = b.month ∧ a.day = b.day)

/-- Successor calendar day (time-of-day preserved), as `date-fns` `addDays 1`. -/
def nextDay (dt : DateT) : DateT :=
  if dt.day < monthLength dt.year dt.month then ⟨dt.year, dt.month, dt.day + 1, dt.tod⟩
  else if dt.month < 12 then ⟨dt.year, dt.month + 1, 1, dt.tod⟩
  else ⟨dt.year + 1, 1, 1, dt.tod⟩

/-- Predecessor calendar day, as `date-fns` `addDays (-1)` on a valid date. -/
def prevDay (dt : DateT) : DateT :=
  if 2 ≤ dt.day then ⟨dt.year, dt.month, dt.day - 1, dt.tod⟩
  else if 2 ≤ dt.month then ⟨dt.year, dt.month - 1, monthLength dt.year (dt.month - 1), dt.tod⟩
  else ⟨dt.year - 1, 12, 31, dt.tod⟩

/-- `date-fns` `addDays` for a non-negative count: iterated successor day. -/
def addDaysN (dt : DateT) : Nat → DateT
  | 0 => dt
  | n + 1 => nextDay (addDaysN dt n)

/-- Iterated predecessor day (used to characterise the backward weekday scan). -/
def prevDaysN (dt : DateT) : Nat → DateT
  | 0 => dt
  | n + 1 => prevDay (prevDaysN dt n)

/-- `date-fns` `addMonths`: advance the month index, clamping the day to the
target month's length; time-of-day preserved. -/
def addMonths (dt : DateT) (n : Nat) : DateT :=
  let t : Int := dt.year * 12 + (dt.month : Int) - 1 + n
  let y : Int := t / 12
  let m : Nat := (t % 12).toNat + 1
  ⟨y, m, min dt.day (monthLength y m), dt.tod⟩

/-- Normalise a (year, month, day-of-month) triple whose day may exceed the
month length, rolling the excess into following months (JS `setDate`
overflow semantics).  The fuel argument strictly bounds the number of
month rollovers; callers pass the day itself, which always suffices since
every rollover removes at least 28 from the day. -/
def rollForward : Nat → Int → Nat → Nat → Nat → DateT
  | 0, y, m, d, tod => ⟨y, m, d, tod⟩
  | fuel + 1, y, m, d, tod =>
    if d ≤ monthLength y m then ⟨y, m, d, tod⟩
    else if m < 12 then rollForward fuel y (m + 1) (d - monthLength y m) tod
    else rollForward fuel (y + 1) 1 (d - monthLength y m) tod

/-- JS `Date.prototype.setDate` for a positive argument: set the day-of-month,
letting an out-of-range day overflow into the following month(s).  (The
generator only calls this with `monthDay ≥ 1`, guarded by JS truthiness.) -/
def DateT.setDate (dt : DateT) (n : Nat) : DateT :=
  rollForward n dt.year dt.month n dt.tod

/-- Forward scan of `getNthWeekdayInMonth`: step one day at a time until the
weekday matches.  The source's `while` loop visits at most 7 days when the
weekday is in 0..6; fuel 7 realises exactly those iterations. -/
def scanFwd : Nat → Nat → DateT → DateT
  | 0, _, dt => dt
  | fuel + 1, wd, dt => if dt.getDay = wd then dt else scanFwd fuel wd (nextDay dt)

/-- Backward scan of `getNthWeekdayInMonth` (the `last` ordinal), fuel 7. -/
def scanBwd : Nat → Nat → DateT → DateT
  | 0, _, dt => dt
  | fuel + 1, wd, dt => if dt.getDay = wd then dt else scanBwd fuel wd (prevDay dt)

/-- Recurrence type, as in the source (`'custom'` is declared but has no
case in the generator's `switch`, so it performs no advancement). -/
inductive RecurrenceType
  | daily
  | weekly
  | monthly
  | yearly
  | custom
deriving DecidableEq, Repr

/-- Ordinal for "nth weekday of month" rules. -/
inductive MonthWeek
  | first
  | second
  | third
  | fourth
  | last
deriving DecidableEq, Repr

/-- The source's `RecurrenceRule` record (optional fields as `Option`). -/
structure RecurrenceRule where
  type : RecurrenceType
  interval : Nat
  daysOfWeek : Option (List Nat) := none
  monthDay : Option Nat := none
  monthWeek : Option MonthWeek := none
  monthWeekDay : Option Nat := none
  startDate : DateT
  endDate : Option DateT := none
deriving DecidableEq, Repr

/-- The source's `getNthWeekdayInMonth(date, week, weekday)`: find the first
day of `date`'s month with the given weekday by forward scan; ordinals
first..fourth add 0/7/14/21 days to it; `last` scans backward from the
month's final day.  The probe dates constructed from the month (`new
Date(y, m, 1)` and the last day) carry time-of-day 0, exactly as in JS. -/
def getNthWeekdayInMonth (date : DateT) (week : MonthWeek) (weekday : Nat) : DateT :=
  let firstWeekday : DateT := scanFwd 7 weekday ⟨date.year, date.month, 1, 0⟩
  match week with
  | .first => firstWeekday
  | .second => addDaysN firstWeekday 7
  | .third => addDaysN firstWeekday 14
  | .fourth => addDaysN firstWeekday 21
  | .last => scanBwd 7 weekday ⟨date.year, date.month, monthLength date.year date.month, 0⟩

/-- The monthly branch when `rule.monthDay` is absent or 0 (JS falsy): use the
nth-weekday policy when `monthWeek` is set and `monthWeekDay !== undefined`,
else a plain `addMonths`. -/
def monthlyNoDayStep (rule : RecurrenceRule) (cur : DateT) : DateT :=
  match rule.monthWeek, rule.monthWeekDay with
  | some w, some wd => getNthWeekdayInMonth (addMonths cur rule.interval) w wd
  | _, _ => addMonths cur rule.interval

/-- One iteration of the generator's `switch`: compute the next cursor date
from the current one.  Mirrors `generateOccurrences`'s loop body in
`src/unnamed/part_000` case by case; `custom` has no case there, so the
cursor is unchanged.  In the weekly branch, the JS `find(...) || days[0]`
fallback is a plain `match`: the found value satisfies `d > currentDay ≥ 0`,
so it is never the falsy 0. -/
def stepDate (rule : RecurrenceRule) (cur : DateT) : DateT :=
  match rule.type with
  | .daily => addDaysN cur rule.interval
  | .weekly =>
    let jumped := addDaysN cur (7 * rule.interval)
    match rule.daysOfWeek with
    | some days =>
      if days.length = 0 then jumped
      else
        let currentDay := jumped.getDay
        let nextD : Nat :=
          match days.find? (fun d => decide (currentDay < d)) with
          | some v => v
          | none => days.headD 0
        addDaysN jumped (((nextD : Int) - (currentDay : Int) + 7) % 7).toNat
    | none => jumped
  | .monthly =>
    match rule.monthDay with
    | some md =>
      if md ≠ 0 then (addMonths cur rule.interval).setDate md
      else monthlyNoDayStep rule cur
    | none => monthlyNoDayStep rule cur
  | .yearly => addMonths cur (12 * rule.interval)
  | .custom => cur

/-- Tail of the generation loop: with `fuel` slots remaining, repeatedly
compute the next candidate, stop (returning the prefix) when it exceeds
`endDate`, else emit it and continue.  `fuel = count - 1` reproduces the
source's `while (occurrences.length < count)` with the seeded start date. -/
def genAux (rule : RecurrenceRule) : Nat → DateT → List DateT
  | 0, _ => []
  | n + 1, cur =>
    let next := stepDate rule cur
    match rule.endDate with
    | some e => if DateT.ltb e next then [] else next :: genAux rule n next
    | none => next :: genAux rule n next

/-- The source's `generateOccurrences(rule, count = 30)`: seed the output with
`rule.startDate`, then loop while the length is below `count`, advancing the
cursor by `stepDate` and breaking when the candidate exceeds `rule.endDate`
(full date-time comparison, as JS `currentDate > rule.endDate`). -/
def generateOccurrences (rule : RecurrenceRule) (count : Nat := 30) : List DateT :=
  rule.startDate :: genAux rule (count - 1) rule.startDate

/-- The month component is in civil range. -/
def MonthOk (dt : DateT) : Prop := 1 ≤ dt.month ∧ dt.month ≤ 12

/-- A fully in-range civil date. -/
def ValidDate (dt : DateT) : Prop :=
  1 ≤ dt.month ∧ dt.month ≤ 12 ∧ 1 ≤ dt.day ∧ dt.day ≤ monthLength dt.year dt.month

/-- Linear month index (year * 12 + month - 1); strictly increasing steps of
the monthly/yearly policies increase it. -/
def midx (dt : DateT) : Int := dt.year * 12 + (dt.month : Int) - 1

/-- A valid rule per the spec's data-model invariants (the spec's type
enumeration has no `custom` variant): interval at least 1, weekly rules
carry a non-empty weekday list, a present `monthDay` is 1..31, the start
date is a calendar date, and a present `endDate` is not before the start. -/
def ValidRule (r : RecurrenceRule) : Prop :=
  r.type ≠ RecurrenceType.custom ∧
  1 ≤ r.interval ∧
  (r.type = RecurrenceType.weekly → ∃ d l, r.daysOfWeek = some (d :: l)) ∧
  (∀ md, r.monthDay = some md → 1 ≤ md ∧ md ≤ 31) ∧
  MonthOk r.startDate ∧
  (∀ e, r.endDate = some e → DateT.ltb e r.startDate = false)

/-- Typed validation errors, one per data-model invariant. -/
inductive ValidationError
  | InvalidInterval
  | EmptyWeekdaySet
  | InvalidMonthDay
  | InvalidDateRange
deriving DecidableEq, Repr

/-- Modelled from the spec: the repository has no `validate` function in its
source (the UI only constrains inputs); per spec sections 4.1 and 7,
`validate` checks the data-model invariants in order and returns a typed
error naming the first violated one, else the rule unchanged. -/
def validate (r : RecurrenceRule) : Except ValidationError RecurrenceRule :=
  if r.interval < 1 then Except.error ValidationError.InvalidInterval
  else if r.type = RecurrenceType.weekly ∧ r.daysOfWeek.getD [] = [] then
    Except.error ValidationError.EmptyWeekdaySet
  else if r.monthDay.getD 1 < 1 ∨ 31 < r.monthDay.getD 1 then
    Except.error ValidationError.InvalidMonthDay
  else if (r.endDate.elim false (fun e => DateT.ltb e r.startDate)) = true then
    Except.error ValidationError.InvalidDateRange
  else Except.ok r


/-- Propositional characterisation of the date-time comparison. -/
theorem ltb_iff (a b : DateT) : DateT.ltb a b = true ↔
    (a.year < b.year ∨ (a.year = b.year ∧ (a.month < b.month ∨ (a.month = b.month ∧
      (a.day < b.day ∨ (a.day = b.day ∧ a.tod < b.tod)))))) := by
  unfold DateT.ltb
  exact decide_eq_true_iff

/-- The date-time comparison is irreflexive. -/
theorem ltb_irrefl (a : DateT) : DateT.ltb a a = false := by
  simp [DateT.ltb]

/-- The date-time comparison is transitive. -/
theorem ltb_trans {a b c : DateT} (h1 : DateT.ltb a b = true) (h2 : DateT.ltb b c = true) :
    DateT.ltb a c = true := by
  simp only [DateT.ltb, decide_eq_true_eq] at h1 h2 ⊢
  omega

/-- Strictly smaller date-times are distinct. -/
theorem ltb_ne {a b : DateT} (h : DateT.ltb a b = true) : a ≠ b := by
  rintro rfl
  rw [ltb_irrefl] at h
  exact Bool.noConfusion h

/-- Every month has at least 28 days. -/
theorem monthLength_ge_28 (y : Int) (m : Nat) : 28 ≤ monthLength y m := by
  unfold monthLength
  split <;> first | omega | (split <;> omega)

/-- The successor day is strictly later. -/
theorem nextDay_gt (dt : DateT) : DateT.ltb dt (nextDay dt) = true := by
  unfold nextDay
  split
  · rw [ltb_iff]
    dsimp only
    omega
  · split <;> (rw [ltb_iff]; dsimp only; omega)

/-- The successor day keeps the month in civil range and does not decrease
the linear month index. -/
theorem nextDay_midx (dt : DateT) (h : MonthOk dt) :
    midx dt ≤ midx (nextDay dt) ∧ MonthOk (nextDay dt) := by
  obtain ⟨h1, h2⟩ := h
  unfold nextDay
  split
  · exact ⟨le_refl _, h1, h2⟩
  · split <;> (refine ⟨?_, ?_, ?_⟩ <;> (simp only [midx, MonthOk]; omega))

/-- Iterating the successor day, starting from the already-advanced date. -/
theorem addDaysN_add (dt : DateT) (a : Nat) : ∀ b, addDaysN (addDaysN dt a) b = addDaysN dt (a + b)
  | 0 => rfl
  | b + 1 => by
    show nextDay (addDaysN (addDaysN dt a) b) = addDaysN dt (a + b + 1)
    rw [addDaysN_add dt a b]
    rfl

/-- Adding at least one day gives a strictly later date. -/
theorem addDaysN_gt (dt : DateT) (n : Nat) (h : 1 ≤ n) : DateT.ltb dt (addDaysN dt n) = true := by
  induction n with
  | zero => omega
  | succ k ih =>
    rcases Nat.eq_zero_or_pos k with hk | hk
    · subst hk
      exact nextDay_gt dt
    · exact ltb_trans (ih hk) (nextDay_gt (addDaysN dt k))

/-- Adding days keeps the month in civil range and does not decrease the
linear month index. -/
theorem addDaysN_midx (dt : DateT) (h : MonthOk dt) (n : Nat) :
    midx dt ≤ midx (addDaysN dt n) ∧ MonthOk (addDaysN dt n) := by
  induction n with
  | zero => exact ⟨le_refl _, h⟩
  | succ k ih =>
    have hn := nextDay_midx (addDaysN dt k) ih.2
    exact ⟨le_trans ih.1 hn.1, hn.2⟩

/-- `addMonths` advances the linear month index by exactly `n`. -/
theorem addMonths_midx (dt : DateT) (n : Nat) : midx (addMonths dt n) = midx dt + n := by
  simp only [addMonths, midx]
  omega

/-- `addMonths` always produces an in-range month. -/
theorem addMonths_monthOk (dt : DateT) (n : Nat) : MonthOk (addMonths dt n) := by
  simp only [addMonths, MonthOk]
  omega

/-- A strictly smaller linear month index forces a strictly earlier date-time,
for dates with in-range months. -/
theorem midx_lt_ltb {a b : DateT} (ha : MonthOk a) (hb : MonthOk b) (h : midx a < midx b) :
    DateT.ltb a b = true := by
  obtain ⟨ha1, ha2⟩ := ha
  obtain ⟨hb1, hb2⟩ := hb
  simp only [midx] at h
  simp only [DateT.ltb, decide_eq_true_eq]
  omega

/-- The day-overflow normalisation keeps the month in range and never moves
the linear month index backward. -/
theorem rollForward_midx : ∀ (fuel : Nat) (y : Int) (m d tod : Nat), 1 ≤ m → m ≤ 12 →
    y * 12 + (m : Int) - 1 ≤ midx (rollForward fuel y m d tod) ∧
    MonthOk (rollForward fuel y m d tod)
  | 0, y, m, d, tod, h1, h2 => ⟨le_refl _, h1, h2⟩
  | fuel + 1, y, m, d, tod, h1, h2 => by
    simp only [rollForward]
    split
    · exact ⟨le_refl _, h1, h2⟩
    · split
      · have ih := rollForward_midx fuel y (m + 1) (d - monthLength y m) tod (by omega) (by omega)
        refine ⟨?_, ih.2⟩
        refine le_trans ?_ ih.1
        push_cast
        omega
      · have ih := rollForward_midx fuel (y + 1) 1 (d - monthLength y m) tod (by omega) (by omega)
        refine ⟨?_, ih.2⟩
        refine le_trans ?_ ih.1
        push_cast
        omega

/-- The forward weekday scan keeps the month in range and never moves the
linear month index backward. -/
theorem scanFwd_midx (wd : Nat) : ∀ (fuel : Nat) (dt : DateT), MonthOk dt →
    midx dt ≤ midx (scanFwd fuel wd dt) ∧ MonthOk (scanFwd fuel wd dt)
  | 0, dt, h => ⟨le_refl _, h⟩
  | fuel + 1, dt, h => by
    simp only [scanFwd]
    split
    · exact ⟨le_refl _, h⟩
    · have hn := nextDay_midx dt h
      have ih := scanFwd_midx wd fuel (nextDay dt) hn.2
      exact ⟨le_trans hn.1 ih.1, ih.2⟩

/-- A backward scan whose fuel is below the starting day stays inside the
starting month. -/
theorem scanBwd_stays (wd : Nat) : ∀ (fuel : Nat) (dt : DateT), fuel < dt.day →
    (scanBwd fuel wd dt).year = dt.year ∧ (scanBwd fuel wd dt).month = dt.month ∧
    dt.day - fuel ≤ (scanBwd fuel wd dt).day ∧ (scanBwd fuel wd dt).day ≤ dt.day
  | 0, dt, _ => ⟨rfl, rfl, by show dt.day - 0 ≤ dt.day; omega, le_refl _⟩
  | fuel + 1, dt, h => by
    simp only [scanBwd]
    split
    · exact ⟨rfl, rfl, by show dt.day - (fuel + 1) ≤ dt.day; omega, le_refl _⟩
    · have hprev : prevDay dt = ⟨dt.year, dt.month, dt.day - 1, dt.tod⟩ := by
        simp only [prevDay, if_pos (show 2 ≤ dt.day by omega)]
      rw [hprev]
      have ih := scanBwd_stays wd fuel ⟨dt.year, dt.month, dt.day - 1, dt.tod⟩
        (by dsimp only; omega)
      dsimp only at ih
      exact ⟨ih.1, ih.2.1, by omega, by omega⟩

/-- The nth-weekday resolver keeps the month in range and never moves the
linear month index backward from its anchor month. -/
theorem getNth_midx (dtA : DateT) (w : MonthWeek) (wd : Nat) (h : MonthOk dtA) :
    midx dtA ≤ midx (getNthWeekdayInMonth dtA w wd) ∧
    MonthOk (getNthWeekdayInMonth dtA w wd) := by
  have hbase : MonthOk (⟨dtA.year, dtA.month, 1, 0⟩ : DateT) := h
  have hbm : midx (⟨dtA.year, dtA.month, 1, 0⟩ : DateT) = midx dtA := rfl
  have hf := scanFwd_midx wd 7 ⟨dtA.year, dtA.month, 1, 0⟩ hbase
  cases w <;> simp only [getNthWeekdayInMonth]
  · exact ⟨le_of_eq hbm.symm |>.trans hf.1, hf.2⟩
  · have ha := addDaysN_midx _ hf.2 7
    exact ⟨((le_of_eq hbm.symm).trans hf.1).trans ha.1, ha.2⟩
  · have ha := addDaysN_midx _ hf.2 14
    exact ⟨((le_of_eq hbm.symm).trans hf.1).trans ha.1, ha.2⟩
  · have ha := addDaysN_midx _ hf.2 21
    exact ⟨((le_of_eq hbm.symm).trans hf.1).trans ha.1, ha.2⟩
  · have hlen := monthLength_ge_28 dtA.year dtA.month
    have hs := scanBwd_stays wd 7 ⟨dtA.year, dtA.month, monthLength dtA.year dtA.month, 0⟩
      (by dsimp only; omega)
    dsimp only at hs
    refine ⟨?_, ?_⟩
    · simp only [midx, hs.1, hs.2.1]
      exact le_refl _
    · simp only [MonthOk, hs.2.1]
      exact h

/-- Core progress lemma: for a non-`custom` rule with interval at least 1,
one generation step strictly advances the cursor and keeps its month in
civil range. -/
theorem stepDate_gt_monthOk (rule : RecurrenceRule) (cur : DateT)
    (hty : rule.type ≠ RecurrenceType.custom) (hi : 1 ≤ rule.interval) (hm : MonthOk cur) :
    DateT.ltb cur (stepDate rule cur) = true ∧ MonthOk (stepDate rule cur) := by
  cases htype : rule.type with
  | daily =>
    simp only [stepDate, htype]
    exact ⟨addDaysN_gt cur rule.interval hi, (addDaysN_midx cur hm rule.interval).2⟩
  | weekly =>
    simp only [stepDate, htype]
    cases hdw : rule.daysOfWeek with
    | none =>
      exact ⟨addDaysN_gt cur (7 * rule.interval) (by omega),
        (addDaysN_midx cur hm (7 * rule.interval)).2⟩
    | some days =>
      dsimp only
      split
      · exact ⟨addDaysN_gt cur (7 * rule.interval) (by omega),
          (addDaysN_midx cur hm (7 * rule.interval)).2⟩
      · rw [addDaysN_add]
        refine ⟨addDaysN_gt cur _ (by omega), (addDaysN_midx cur hm _).2⟩
  | monthly =>
    simp only [stepDate, htype]
    have hbase : MonthOk (addMonths cur rule.interval) := addMonths_monthOk cur rule.interval
    have hbidx : midx (addMonths cur rule.interval) = midx cur + rule.interval :=
      addMonths_midx cur rule.interval
    have hnoday : DateT.ltb cur (monthlyNoDayStep rule cur) = true ∧
        MonthOk (monthlyNoDayStep rule cur) := by
      rcases hw : rule.monthWeek with - | w <;> rcases hwd : rule.monthWeekDay with - | wday <;>
          simp only [monthlyNoDayStep, hw, hwd]
      · exact ⟨midx_lt_ltb hm hbase (by omega), hbase⟩
      · exact ⟨midx_lt_ltb hm hbase (by omega), hbase⟩
      · exact ⟨midx_lt_ltb hm hbase (by omega), hbase⟩
      · have hg := getNth_midx (addMonths cur rule.interval) w wday hbase
        exact ⟨midx_lt_ltb hm hg.2 (by omega), hg.2⟩
    cases hmd : rule.monthDay with
    | none => exact hnoday
    | some md =>
      dsimp only
      split
      · have hr := rollForward_midx md (addMonths cur rule.interval).year
          (addMonths cur rule.interval).month md (addMonths cur rule.interval).tod
          hbase.1 hbase.2
        have hridx : midx (addMonths cur rule.interval) ≤
            midx ((addMonths cur rule.interval).setDate md) := by
          rw [DateT.setDate]
          refine le_trans (le_of_eq ?_) hr.1
          simp only [midx]
        refine ⟨midx_lt_ltb hm ?_ (by omega), ?_⟩
        · rw [DateT.setDate]; exact hr.2
        · rw [DateT.setDate]; exact hr.2
      · exact hnoday
  | yearly =>
    simp only [stepDate, htype]
    have hg := addMonths_monthOk cur (12 * rule.interval)
    have hgi := addMonths_midx cur (12 * rule.interval)
    exact ⟨midx_lt_ltb hm hg (by omega), hg⟩
  | custom => exact absurd htype hty

/-- Without an end date the loop tail emits exactly `n` further dates. -/
theorem genAux_length_none (rule : RecurrenceRule) (hend : rule.endDate = none) :
    ∀ (n : Nat) (cur : DateT), (genAux rule n cur).length = n
  | 0, _ => rfl
  | n + 1, cur => by
    simp only [genAux, hend]
    rw [List.length_cons, genAux_length_none rule hend n (stepDate rule cur)]

/-- When the very next candidate already exceeds the end date, the loop tail
is empty. -/
theorem genAux_break (rule : RecurrenceRule) {e : DateT} (hend : rule.endDate = some e)
    {cur : DateT} (h : DateT.ltb e (stepDate rule cur) = true) :
    ∀ n : Nat, genAux rule n cur = []
  | 0 => rfl
  | n + 1 => by
    simp only [genAux, hend, h, if_true]

/-- The loop tail is a strictly increasing chain from the cursor. -/
theorem genAux_chain (rule : RecurrenceRule) (hty : rule.type ≠ RecurrenceType.custom)
    (hi : 1 ≤ rule.interval) :
    ∀ (n : Nat) (cur : DateT), MonthOk cur →
      List.Chain (fun a b => DateT.ltb a b = true) cur (genAux rule n cur)
  | 0, _, _ => List.Chain.nil
  | n + 1, cur, hm => by
    have hstep := stepDate_gt_monthOk rule cur hty hi hm
    cases hend : rule.endDate with
    | some e =>
      simp only [genAux, hend]
      split
      · exact List.Chain.nil
      · exact List.Chain.cons hstep.1 (genAux_chain rule hty hi n _ hstep.2)
    | none =>
      simp only [genAux, hend]
      exact List.Chain.cons hstep.1 (genAux_chain rule hty hi n _ hstep.2)

/-- A strictly increasing chain gives a pairwise strictly increasing list
(the comparison is transitive). -/
theorem pairwise_of_chain : ∀ {l : List DateT} {a : DateT},
    List.Chain (fun x y => DateT.ltb x y = true) a l →
    List.Pairwise (fun x y => DateT.ltb x y = true) (a :: l)
  | [], a, _ => by simp
  | b :: t, a, h => by
    cases h with
    | cons hab hbt =>
      have hp := pairwise_of_chain hbt
      refine List.Pairwise.cons ?_ hp
      intro x hx
      rcases List.mem_cons.mp hx with rfl | hxt
      · exact hab
      · exact ltb_trans hab ((List.pairwise_cons.mp hp).1 x hxt)

/-- C1: generation is bounded a priori.  For every valid rule, a bound of
maxCount 5 with no end date yields exactly 5 elements, and an end date equal
to the start date yields exactly the one-element list [startDate]; the
generator is a total function, so it terminates for every rule and bound. -/
theorem claim1_generate_bounded (rule : RecurrenceRule) (hv : ValidRule rule) :
    (rule.endDate = none → (generateOccurrences rule 5).length = 5) ∧
    (rule.endDate = some rule.startDate →
      ∀ count : Nat, generateOccurrences rule count = [rule.startDate]) := by
  obtain ⟨hty, hi, -, -, hm, -⟩ := hv
  constructor
  · intro hend
    show (rule.startDate :: genAux rule 4 rule.startDate).length = 5
    rw [List.length_cons, genAux_length_none rule hend 4 rule.startDate]
  · intro hend count
    have hgt := (stepDate_gt_monthOk rule rule.startDate hty hi hm).1
    show rule.startDate :: genAux rule (count - 1) rule.startDate = [rule.startDate]
    rw [genAux_break rule hend hgt (count - 1)]

/-- Witness for C1: a concrete valid daily rule whose end date equals its
start date generates exactly the start date. -/
theorem claim1_generate_bounded_witness :
    generateOccurrences
      ⟨RecurrenceType.daily, 1, none, none, none, none, ⟨2025, 1, 1, 0⟩,
        some ⟨2025, 1, 1, 0⟩⟩ 30 = [⟨2025, 1, 1, 0⟩] := by
  have hv : ValidRule ⟨RecurrenceType.daily, 1, none, none, none, none, ⟨2025, 1, 1, 0⟩,
      some ⟨2025, 1, 1, 0⟩⟩ := by
    refine ⟨by decide, by decide, ?_, ?_, ⟨by decide, by decide⟩, ?_⟩
    · intro h
      exact absurd h (by decide)
    · intro md h
      exact Option.noConfusion h
    · intro e h
      injection h with h2
      subst h2
      decide
  exact (claim1_generate_bounded _ hv).2 rfl 30

/-- C2: for every valid rule and bound, the generated list is strictly
increasing in the date-time order and contains no duplicate dates. -/
theorem claim2_generate_strictly_increasing (rule : RecurrenceRule) (count : Nat)
    (hv : ValidRule rule) :
    List.Pairwise (fun a b => DateT.ltb a b = true) (generateOccurrences rule count) ∧
    (generateOccurrences rule count).Nodup := by
  obtain ⟨hty, hi, -, -, hm, -⟩ := hv
  have hch := genAux_chain rule hty hi (count - 1) rule.startDate hm
  have hp := pairwise_of_chain hch
  exact ⟨hp, hp.imp fun h => ltb_ne h⟩

/-- Witness for C2: the concrete Mon/Wed/Fri weekly rule generates a strictly
increasing, duplicate-free list. -/
theorem claim2_generate_strictly_increasing_witness :
    List.Pairwise (fun a b => DateT.ltb a b = true)
      (generateOccurrences ⟨RecurrenceType.weekly, 1, some [1, 3, 5], none, none, none,
        ⟨2025, 6, 2, 0⟩, none⟩ 6) ∧
    (generateOccurrences ⟨RecurrenceType.weekly, 1, some [1, 3, 5], none, none, none,
        ⟨2025, 6, 2, 0⟩, none⟩ 6).Nodup := by
  have hv : ValidRule ⟨RecurrenceType.weekly, 1, some [1, 3, 5], none, none, none,
      ⟨2025, 6, 2, 0⟩, none⟩ := by
    refine ⟨by decide, by decide, ?_, ?_, ⟨by decide, by decide⟩, ?_⟩
    · intro h
      exact ⟨1, [3, 5], rfl⟩
    · intro md h
      exact Option.noConfusion h
    · intro e h
      exact Option.noConfusion h
  exact claim2_generate_strictly_increasing _ 6 hv

/-- C7: for every rule and bound the output list is non-empty and its first
element is the rule's start date (the start date is seeded unconditionally
before the loop). -/
theorem claim7_generate_head (rule : RecurrenceRule) (count : Nat) :
    generateOccurrences rule count ≠ [] ∧
    (generateOccurrences rule count).head? = some rule.startDate :=
  ⟨List.cons_ne_nil _ _, rfl⟩

/-- C10: when the end date is strictly earlier than the start date, the
generator still returns exactly [startDate]: the start date is seeded before
any end-date check, and the first computed candidate already exceeds the end
date, so nothing else is emitted. -/
theorem claim10_end_before_start (rule : RecurrenceRule) (count : Nat) (e : DateT)
    (hty : rule.type ≠ RecurrenceType.custom) (hi : 1 ≤ rule.interval)
    (hm : MonthOk rule.startDate) (he : rule.endDate = some e)
    (hlt : DateT.ltb e rule.startDate = true) :
    generateOccurrences rule count = [rule.startDate] := by
  have hgt := (stepDate_gt_monthOk rule rule.startDate hty hi hm).1
  show rule.startDate :: genAux rule (count - 1) rule.startDate = [rule.startDate]
  rw [genAux_break rule he (ltb_trans hlt hgt) (count - 1)]

/-- Witness for C10: a concrete rule whose end date lies before its start
date generates exactly the start date. -/
theorem claim10_end_before_start_witness :
    generateOccurrences ⟨RecurrenceType.daily, 1, none, none, none, none,
      ⟨2025, 1, 2, 0⟩, some ⟨2025, 1, 1, 0⟩⟩ 30 = [⟨2025, 1, 2, 0⟩] :=
  claim10_end_before_start _ 30 ⟨2025, 1, 1, 0⟩ (by decide) (by decide)
    ⟨by decide, by decide⟩ rfl (by decide)

/-- Day-count of the next day within the same month. -/
theorem daysFromCivil_inc_day (y : Int) (m d : Nat) :
    daysFromCivil y m (d + 1) = daysFromCivil y m d + 1 := by
  by_cases hm : m ≤ 2
  · simp only [daysFromCivil, if_pos hm]
    push_cast
    ring
  · simp only [daysFromCivil, if_neg hm]
    push_cast
    ring

/-- Day-count across a month boundary (months 1..11 to their successor). -/
theorem daysFromCivil_next_month (y : Int) (m : Nat) (hm1 : 1 ≤ m) (hm2 : m ≤ 11) :
    daysFromCivil y (m + 1) 1 = daysFromCivil y m (monthLength y m) + 1 := by
  interval_cases m
  · simp [daysFromCivil, monthLength]
    omega
  · simp [daysFromCivil, monthLength, isLeap]
    split <;> omega
  · simp [daysFromCivil, monthLength]
    omega
  · simp [daysFromCivil, monthLength]
    omega
  · simp [daysFromCivil, monthLength]
    omega
  · simp [daysFromCivil, monthLength]
    omega
  · simp [daysFromCivil, monthLength]
    omega
  · simp [daysFromCivil, monthLength]
    omega
  · simp [daysFromCivil, monthLength]
    omega
  · simp [daysFromCivil, monthLength]
    omega
  · simp [daysFromCivil, monthLength]
    omega

/-- Day-count across a year boundary (December 31 to January 1). -/
theorem daysFromCivil_next_year (y : Int) :
    daysFromCivil (y + 1) 1 1 = daysFromCivil y 12 (monthLength y 12) + 1 := by
  simp [daysFromCivil, monthLength]
  omega

/-- Weekdays are always in 0..6. -/
theorem getDay_lt_7 (dt : DateT) : dt.getDay < 7 := by
  unfold DateT.getDay
  omega

/-- Weekdays cycle: the next day's weekday is the successor modulo 7. -/
theorem getDay_nextDay (dt : DateT) (hv : ValidDate dt) :
    (nextDay dt).getDay = (dt.getDay + 1) % 7 := by
  obtain ⟨hm1, hm2, hd1, hd2⟩ := hv
  by_cases hlt : dt.day < monthLength dt.year dt.month
  · have hnd : nextDay dt = ⟨dt.year, dt.month, dt.day + 1, dt.tod⟩ := by
      unfold nextDay
      rw [if_pos hlt]
    rw [hnd]
    unfold DateT.getDay
    dsimp only
    rw [daysFromCivil_inc_day]
    omega
  · have hd : dt.day = monthLength dt.year dt.month := by omega
    by_cases hm12 : dt.month < 12
    · have hnd : nextDay dt = ⟨dt.year, dt.month + 1, 1, dt.tod⟩ := by
        unfold nextDay
        rw [if_neg hlt, if_pos hm12]
      rw [hnd]
      unfold DateT.getDay
      dsimp only
      rw [hd, daysFromCivil_next_month dt.year dt.month hm1 (by omega)]
      omega
    · have hm : dt.month = 12 := by omega
      have hnd : nextDay dt = ⟨dt.year + 1, 1, 1, dt.tod⟩ := by
        unfold nextDay
        rw [if_neg hlt, if_neg hm12]
      rw [hnd]
      unfold DateT.getDay
      dsimp only
      rw [hd, hm, daysFromCivil_next_year dt.year]
      omega

/-- The successor day of a valid date is valid. -/
theorem nextDay_valid (dt : DateT) (hv : ValidDate dt) : ValidDate (nextDay dt) := by
  obtain ⟨hm1, hm2, hd1, hd2⟩ := hv
  unfold nextDay
  split
  · next hlt => exact ⟨hm1, hm2, by dsimp only; omega, by dsimp only; omega⟩
  · split
    · next hge hm12 =>
      exact ⟨by dsimp only; omega, by dsimp only; omega, by dsimp only; omega,
        le_trans (by dsimp only; omega) (monthLength_ge_28 _ _)⟩
    · next hge hm12 =>
      exact ⟨by dsimp only; omega, by dsimp only; omega, by dsimp only; omega,
        le_trans (by dsimp only; omega) (monthLength_ge_28 _ _)⟩

/-- Iterated successor days of a valid date are valid. -/
theorem addDaysN_valid (dt : DateT) : ∀ n : Nat, ValidDate dt → ValidDate (addDaysN dt n)
  | 0, h => h
  | n + 1, h => nextDay_valid _ (addDaysN_valid dt n h)

/-- Weekday after adding `n` days. -/
theorem getDay_addDaysN (dt : DateT) (hv : ValidDate dt) :
    ∀ n : Nat, (addDaysN dt n).getDay = (dt.getDay + n) % 7
  | 0 => by
    have := getDay_lt_7 dt
    show dt.getDay = (dt.getDay + 0) % 7
    omega
  | n + 1 => by
    show (nextDay (addDaysN dt n)).getDay = _
    rw [getDay_nextDay _ (addDaysN_valid dt n hv), getDay_addDaysN dt hv n]
    omega

/-- Starting the day iteration one day later. -/
theorem addDaysN_front (dt : DateT) : ∀ n : Nat, addDaysN (nextDay dt) n = addDaysN dt (n + 1)
  | 0 => rfl
  | n + 1 => by
    show nextDay (addDaysN (nextDay dt) n) = nextDay (addDaysN dt (n + 1))
    rw [addDaysN_front dt n]

/-- Adding days that stay inside the month only moves the day field. -/
theorem addDaysN_in_month (dt : DateT) : ∀ n : Nat,
    dt.day + n ≤ monthLength dt.year dt.month →
    addDaysN dt n = ⟨dt.year, dt.month, dt.day + n, dt.tod⟩
  | 0, _ => rfl
  | n + 1, h => by
    show nextDay (addDaysN dt n) = _
    rw [addDaysN_in_month dt n (by omega)]
    unfold nextDay
    rw [if_pos (by dsimp only; omega)]
    rfl

/-- The forward weekday scan with enough fuel lands exactly on the first
matching weekday, `(7 + wd - getDay) % 7` days ahead. -/
theorem scanFwd_eq (wd : Nat) (hwd : wd ≤ 6) :
    ∀ (fuel : Nat) (dt : DateT), ValidDate dt → (7 + wd - dt.getDay) % 7 < fuel →
      scanFwd fuel wd dt = addDaysN dt ((7 + wd - dt.getDay) % 7)
  | 0, dt, _, h => absurd h (Nat.not_lt_zero _)
  | fuel + 1, dt, hv, h => by
    have hlt7 := getDay_lt_7 dt
    simp only [scanFwd]
    by_cases h0 : dt.getDay = wd
    · rw [if_pos h0, h0, (show (7 + wd - wd) % 7 = 0 by omega)]
      rfl
    · rw [if_neg h0]
      have hv' := nextDay_valid dt hv
      have hδ1 : 1 ≤ (7 + wd - dt.getDay) % 7 := by omega
      have hstep : (7 + wd - (nextDay dt).getDay) % 7 = (7 + wd - dt.getDay) % 7 - 1 := by
        rw [getDay_nextDay dt hv]
        omega
      rw [scanFwd_eq wd hwd fuel (nextDay dt) hv' (by rw [hstep]; omega), hstep, addDaysN_front]
      congr 1
      omega

/-- The predecessor day of a valid date is valid. -/
theorem prevDay_valid (dt : DateT) (hv : ValidDate dt) : ValidDate (prevDay dt) := by
  obtain ⟨hm1, hm2, hd1, hd2⟩ := hv
  unfold prevDay
  split
  · next h2 => exact ⟨hm1, hm2, by dsimp only; omega, by dsimp only; omega⟩
  · split
    · next hd2' hm2' =>
      refine ⟨by dsimp only; omega, by dsimp only; omega, ?_, le_refl _⟩
      dsimp only
      exact le_trans (by omega) (monthLength_ge_28 _ _)
    · next hd2' hm2' =>
      exact ⟨by dsimp only; omega, by dsimp only; omega, by dsimp only; omega, le_refl _⟩

/-- The successor of the predecessor of a valid date is the date itself. -/
theorem nextDay_prevDay (dt : DateT) (hv : ValidDate dt) : nextDay (prevDay dt) = dt := by
  obtain ⟨y, m, d, tod⟩ := dt
  obtain ⟨hm1, hm2, hd1, hd2⟩ := hv
  dsimp only at hm1 hm2 hd1 hd2
  unfold prevDay
  dsimp only
  split
  · next h2 =>
    unfold nextDay
    rw [if_pos (by dsimp only; omega)]
    dsimp only
    simp only [DateT.mk.injEq]
    exact ⟨trivial, trivial, by omega, trivial⟩
  · split
    · next hd2' hm2' =>
      unfold nextDay
      rw [if_neg (by dsimp only; omega), if_pos (by dsimp only; omega)]
      simp only [DateT.mk.injEq]
      exact ⟨trivial, by omega, by omega, trivial⟩
    · next hd2' hm2' =>
      unfold nextDay
      rw [if_neg (by simp [monthLength]), if_neg (by dsimp only; omega)]
      simp only [DateT.mk.injEq]
      exact ⟨by omega, by omega, by omega, trivial⟩

/-- Weekdays cycle backward: the previous day's weekday is 6 more modulo 7. -/
theorem getDay_prevDay (dt : DateT) (hv : ValidDate dt) :
    (prevDay dt).getDay = (dt.getDay + 6) % 7 := by
  have hpv := prevDay_valid dt hv
  have h := getDay_nextDay (prevDay dt) hpv
  rw [nextDay_prevDay dt hv] at h
  have h1 := getDay_lt_7 dt
  have h2 := getDay_lt_7 (prevDay dt)
  omega

/-- Iterated predecessor days of a valid date are valid. -/
theorem prevDaysN_valid (dt : DateT) : ∀ n : Nat, ValidDate dt → ValidDate (prevDaysN dt n)
  | 0, h => h
  | n + 1, h => prevDay_valid _ (prevDaysN_valid dt n h)

/-- Weekday after stepping `n` days backward. -/
theorem getDay_prevDaysN (dt : DateT) (hv : ValidDate dt) :
    ∀ n : Nat, (prevDaysN dt n).getDay = (dt.getDay + 6 * n) % 7
  | 0 => by
    have := getDay_lt_7 dt
    show dt.getDay = (dt.getDay + 6 * 0) % 7
    omega
  | n + 1 => by
    show (prevDay (prevDaysN dt n)).getDay = _
    rw [getDay_prevDay _ (prevDaysN_valid dt n hv), getDay_prevDaysN dt hv n]
    omega

/-- Starting the backward iteration one day earlier. -/
theorem prevDaysN_front (dt : DateT) : ∀ n : Nat, prevDaysN (prevDay dt) n = prevDaysN dt (n + 1)
  | 0 => rfl
  | n + 1 => by
    show prevDay (prevDaysN (prevDay dt) n) = prevDay (prevDaysN dt (n + 1))
    rw [prevDaysN_front dt n]

/-- Stepping backward while staying inside the month only moves the day. -/
theorem prevDaysN_in_month (dt : DateT) : ∀ n : Nat, n < dt.day →
    prevDaysN dt n = ⟨dt.year, dt.month, dt.day - n, dt.tod⟩
  | 0, _ => rfl
  | n + 1, h => by
    show prevDay (prevDaysN dt n) = _
    rw [prevDaysN_in_month dt n (by omega)]
    unfold prevDay
    rw [if_pos (by dsimp only; omega)]
    rfl

/-- The backward weekday scan with enough fuel lands exactly on the first
matching weekday, `(7 + getDay - wd) % 7` days back. -/
theorem scanBwd_eq (wd : Nat) (hwd : wd ≤ 6) :
    ∀ (fuel : Nat) (dt : DateT), ValidDate dt → (7 + dt.getDay - wd) % 7 < fuel →
      scanBwd fuel wd dt = prevDaysN dt ((7 + dt.getDay - wd) % 7)
  | 0, dt, _, h => absurd h (Nat.not_lt_zero _)
  | fuel + 1, dt, hv, h => by
    have hlt7 := getDay_lt_7 dt
    simp only [scanBwd]
    by_cases h0 : dt.getDay = wd
    · rw [if_pos h0, h0, (show (7 + wd - wd) % 7 = 0 by omega)]
      rfl
    · rw [if_neg h0]
      have hv' := prevDay_valid dt hv
      have hδ1 : 1 ≤ (7 + dt.getDay - wd) % 7 := by omega
      have hstep : (7 + (prevDay dt).getDay - wd) % 7 = (7 + dt.getDay - wd) % 7 - 1 := by
        rw [getDay_prevDay dt hv]
        omega
      rw [scanBwd_eq wd hwd fuel (prevDay dt) hv' (by rw [hstep]; omega), hstep, prevDaysN_front]
      congr 1
      omega

/-- The first weekday scan of `getNthWeekdayInMonth` stays in the month,
lands within the first 7 days, and hits the requested weekday. -/
theorem scanFwd7_spec (y : Int) (m wd : Nat) (hm1 : 1 ≤ m) (hm2 : m ≤ 12) (hwd : wd ≤ 6) :
    (scanFwd 7 wd ⟨y, m, 1, 0⟩).year = y ∧ (scanFwd 7 wd ⟨y, m, 1, 0⟩).month = m ∧
    1 ≤ (scanFwd 7 wd ⟨y, m, 1, 0⟩).day ∧ (scanFwd 7 wd ⟨y, m, 1, 0⟩).day ≤ 7 ∧
    (scanFwd 7 wd ⟨y, m, 1, 0⟩).getDay = wd := by
  have h28 := monthLength_ge_28 y m
  have hvb : ValidDate ⟨y, m, 1, 0⟩ := ⟨hm1, hm2, by dsimp only; omega, by dsimp only; omega⟩
  have hgl := getDay_lt_7 (⟨y, m, 1, 0⟩ : DateT)
  have hδ : (7 + wd - (⟨y, m, 1, 0⟩ : DateT).getDay) % 7 < 7 := by omega
  have heq := scanFwd_eq wd hwd 7 ⟨y, m, 1, 0⟩ hvb hδ
  have hin := addDaysN_in_month (⟨y, m, 1, 0⟩ : DateT)
    ((7 + wd - (⟨y, m, 1, 0⟩ : DateT).getDay) % 7) (by dsimp only; omega)
  have hgd := getDay_addDaysN (⟨y, m, 1, 0⟩ : DateT) hvb
    ((7 + wd - (⟨y, m, 1, 0⟩ : DateT).getDay) % 7)
  rw [heq, hin]
  rw [hin] at hgd
  refine ⟨rfl, rfl, by dsimp only; omega, by dsimp only; omega, ?_⟩
  rw [hgd]
  omega

/-- The backward scan of `getNthWeekdayInMonth` stays in the month, lands
within the last 7 days, and hits the requested weekday. -/
theorem scanBwd7_spec (y : Int) (m wd : Nat) (hm1 : 1 ≤ m) (hm2 : m ≤ 12) (hwd : wd ≤ 6) :
    (scanBwd 7 wd ⟨y, m, monthLength y m, 0⟩).year = y ∧
    (scanBwd 7 wd ⟨y, m, monthLength y m, 0⟩).month = m ∧
    monthLength y m - 6 ≤ (scanBwd 7 wd ⟨y, m, monthLength y m, 0⟩).day ∧
    (scanBwd 7 wd ⟨y, m, monthLength y m, 0⟩).day ≤ monthLength y m ∧
    (scanBwd 7 wd ⟨y, m, monthLength y m, 0⟩).getDay = wd := by
  have h28 := monthLength_ge_28 y m
  have hvb : ValidDate ⟨y, m, monthLength y m, 0⟩ :=
    ⟨hm1, hm2, by dsimp only; omega, le_refl _⟩
  have hgl := getDay_lt_7 (⟨y, m, monthLength y m, 0⟩ : DateT)
  have hδ : (7 + (⟨y, m, monthLength y m, 0⟩ : DateT).getDay - wd) % 7 < 7 := by omega
  have heq := scanBwd_eq wd hwd 7 ⟨y, m, monthLength y m, 0⟩ hvb hδ
  have hin := prevDaysN_in_month (⟨y, m, monthLength y m, 0⟩ : DateT)
    ((7 + (⟨y, m, monthLength y m, 0⟩ : DateT).getDay - wd) % 7) (by dsimp only; omega)
  have hgd := getDay_prevDaysN (⟨y, m, monthLength y m, 0⟩ : DateT) hvb
    ((7 + (⟨y, m, monthLength y m, 0⟩ : DateT).getDay - wd) % 7)
  rw [heq, hin]
  rw [hin] at hgd
  refine ⟨rfl, rfl, by dsimp only; omega, by dsimp only; omega, ?_⟩
  rw [hgd]
  omega

/-- Ordinals first..fourth of `getNthWeekdayInMonth` add a multiple of 7 days
to the first matching weekday, staying in the month and on the weekday. -/
theorem nthFwd_spec (y : Int) (m wd k : Nat) (hm1 : 1 ≤ m) (hm2 : m ≤ 12) (hwd : wd ≤ 6)
    (hk : k ≤ 21) (hk7 : k % 7 = 0) :
    (addDaysN (scanFwd 7 wd ⟨y, m, 1, 0⟩) k).year = y ∧
    (addDaysN (scanFwd 7 wd ⟨y, m, 1, 0⟩) k).month = m ∧
    (addDaysN (scanFwd 7 wd ⟨y, m, 1, 0⟩) k).day = (scanFwd 7 wd ⟨y, m, 1, 0⟩).day + k ∧
    (addDaysN (scanFwd 7 wd ⟨y, m, 1, 0⟩) k).getDay = wd := by
  obtain ⟨hfy, hfm, hfd1, hfd7, hfw⟩ := scanFwd7_spec y m wd hm1 hm2 hwd
  have h28 := monthLength_ge_28 y m
  have hvF : ValidDate (scanFwd 7 wd ⟨y, m, 1, 0⟩) := by
    refine ⟨?_, ?_, hfd1, ?_⟩
    · rw [hfm]
      exact hm1
    · rw [hfm]
      exact hm2
    · rw [hfy, hfm]
      omega
  have hin := addDaysN_in_month (scanFwd 7 wd ⟨y, m, 1, 0⟩) k (by rw [hfy, hfm]; omega)
  refine ⟨?_, ?_, ?_, ?_⟩
  · rw [hin]
    exact hfy
  · rw [hin]
    exact hfm
  · rw [hin]
  · rw [getDay_addDaysN _ hvF k, hfw]
    omega

/-- C8: the nth-weekday resolver is total (a total function by construction)
and computes what the spec says: the first date of the month with the given
weekday is found by scanning forward at most 7 days from day 1 (its day is
at most 7); ordinals second/third/fourth add exactly 7/14/21 days to it and
always land inside the month; ordinal last scans backward from the month's
final day, landing within the last 7 days; every resolved date lies in the
anchor month and has the requested weekday.  Concretely, the second Tuesday
of June 2025 (whose first Tuesday is the 3rd) is the 10th, and the last
Friday of July 2025 (31 days, ending on a Thursday) is the 25th, 6 days
before month-end. -/
theorem claim8_resolveNthWeekday (dt : DateT) (wd : Nat) (hm : MonthOk dt) (hwd : wd ≤ 6) :
    (∀ week : MonthWeek,
      (getNthWeekdayInMonth dt week wd).year = dt.year ∧
      (getNthWeekdayInMonth dt week wd).month = dt.month ∧
      1 ≤ (getNthWeekdayInMonth dt week wd).day ∧
      (getNthWeekdayInMonth dt week wd).day ≤ monthLength dt.year dt.month ∧
      (getNthWeekdayInMonth dt week wd).getDay = wd) ∧
    (getNthWeekdayInMonth dt MonthWeek.first wd).day ≤ 7 ∧
    (getNthWeekdayInMonth dt MonthWeek.second wd).day
      = (getNthWeekdayInMonth dt MonthWeek.first wd).day + 7 ∧
    (getNthWeekdayInMonth dt MonthWeek.third wd).day
      = (getNthWeekdayInMonth dt MonthWeek.first wd).day + 14 ∧
    (getNthWeekdayInMonth dt MonthWeek.fourth wd).day
      = (getNthWeekdayInMonth dt MonthWeek.first wd).day + 21 ∧
    monthLength dt.year dt.month - 6 ≤ (getNthWeekdayInMonth dt MonthWeek.last wd).day ∧
    getNthWeekdayInMonth ⟨2025, 6, 1, 0⟩ MonthWeek.first 2 = ⟨2025, 6, 3, 0⟩ ∧
    getNthWeekdayInMonth ⟨2025, 6, 1, 0⟩ MonthWeek.second 2 = ⟨2025, 6, 10, 0⟩ ∧
    getNthWeekdayInMonth ⟨2025, 7, 1, 0⟩ MonthWeek.last 5 = ⟨2025, 7, 25, 0⟩ ∧
    monthLength 2025 7 = 31 ∧ DateT.getDay ⟨2025, 7, 31, 0⟩ = 4 := by
  obtain ⟨hm1, hm2⟩ := hm
  have h28 := monthLength_ge_28 dt.year dt.month
  have hf := scanFwd7_spec dt.year dt.month wd hm1 hm2 hwd
  have h7 := nthFwd_spec dt.year dt.month wd 7 hm1 hm2 hwd (by omega) (by omega)
  have h14 := nthFwd_spec dt.year dt.month wd 14 hm1 hm2 hwd (by omega) (by omega)
  have h21 := nthFwd_spec dt.year dt.month wd 21 hm1 hm2 hwd (by omega) (by omega)
  have hl := scanBwd7_spec dt.year dt.month wd hm1 hm2 hwd
  refine ⟨?_, ?_, ?_, ?_, ?_, ?_, by decide, by decide, by decide, by decide, by decide⟩
  · intro week
    cases week
    · simp only [getNthWeekdayInMonth]
      exact ⟨hf.1, hf.2.1, hf.2.2.1, by omega, hf.2.2.2.2⟩
    · simp only [getNthWeekdayInMonth]
      exact ⟨h7.1, h7.2.1, by omega, by omega, h7.2.2.2⟩
    · simp only [getNthWeekdayInMonth]
      exact ⟨h14.1, h14.2.1, by omega, by omega, h14.2.2.2⟩
    · simp only [getNthWeekdayInMonth]
      exact ⟨h21.1, h21.2.1, by omega, by omega, h21.2.2.2⟩
    · simp only [getNthWeekdayInMonth]
      exact ⟨hl.1, hl.2.1, by omega, hl.2.2.2.1, hl.2.2.2.2⟩
  · simp only [getNthWeekdayInMonth]
    exact hf.2.2.2.1
  · simp only [getNthWeekdayInMonth]
    exact h7.2.2.1
  · simp only [getNthWeekdayInMonth]
    exact h14.2.2.1
  · simp only [getNthWeekdayInMonth]
    exact h21.2.2.1
  · simp only [getNthWeekdayInMonth]
    exact hl.2.2.1

/-- Witness for C8 at the concrete June 2025 / Tuesday instance. -/
theorem claim8_resolveNthWeekday_witness :
    (getNthWeekdayInMonth ⟨2025, 6, 1, 0⟩ MonthWeek.first 2).day ≤ 7 :=
  (claim8_resolveNthWeekday ⟨2025, 6, 1, 0⟩ 2 ⟨by decide, by decide⟩ (by decide)).2.1

/-- Counterexample to C3: for the weekly rule with interval 1 and
daysOfWeek = {Mon, Wed, Fri} starting on Monday 2025-06-02, the first six
occurrences are not Mon/Wed/Fri of that week and the next (2, 4, 6, 9, 11
and 13 June). -/
theorem claim3_counterexample :
    generateOccurrences ⟨RecurrenceType.weekly, 1, some [1, 3, 5], none, none, none,
        ⟨2025, 6, 2, 0⟩, none⟩ 6
      ≠ [⟨2025, 6, 2, 0⟩, ⟨2025, 6, 4, 0⟩, ⟨2025, 6, 6, 0⟩,
         ⟨2025, 6, 9, 0⟩, ⟨2025, 6, 11, 0⟩, ⟨2025, 6, 13, 0⟩] := by
  decide

/-- C3 as amended: each weekly step first jumps a full week from the previous
occurrence and then snaps forward to the next listed weekday, so only one
selected weekday is produced per step; from Monday 2025-06-02 the first six
occurrences are Mon 2 Jun, Wed 11 Jun, Fri 20 Jun, Mon 30 Jun, Wed 9 Jul
and Fri 18 Jul. -/
theorem claim3_amended_weekly_snapping :
    generateOccurrences ⟨RecurrenceType.weekly, 1, some [1, 3, 5], none, none, none,
        ⟨2025, 6, 2, 0⟩, none⟩ 6
      = [⟨2025, 6, 2, 0⟩, ⟨2025, 6, 11, 0⟩, ⟨2025, 6, 20, 0⟩,
         ⟨2025, 6, 30, 0⟩, ⟨2025, 7, 9, 0⟩, ⟨2025, 7, 18, 0⟩] := by
  decide

/-- C4 failing input evaluated: the monthly-by-day rule with monthDay 31
starting 2025-03-31 produces 2025-05-01 as its second occurrence — the
JS `setDate(31)` on the 30-day April overflows into May instead of
clamping to 2025-04-30 as the spec mandates. -/
theorem claim4_monthday_overflow :
    generateOccurrences ⟨RecurrenceType.monthly, 1, none, some 31, none, none,
        ⟨2025, 3, 31, 0⟩, none⟩ 2
      = [⟨2025, 3, 31, 0⟩, ⟨2025, 5, 1, 0⟩] := by
  decide

/-- Counterexample to C5: with interval 0 (daily) reaching the generator,
three identical dates are emitted silently — no forward-progress check is
performed and no error of any kind is raised (the generator's return type
is a plain list). -/
theorem claim5_counterexample :
    generateOccurrences ⟨RecurrenceType.daily, 0, none, none, none, none,
        ⟨2025, 1, 1, 0⟩, none⟩ 3
      = [⟨2025, 1, 1, 0⟩, ⟨2025, 1, 1, 0⟩, ⟨2025, 1, 1, 0⟩] ∧
    DateT.ltb ⟨2025, 1, 1, 0⟩ ⟨2025, 1, 1, 0⟩ = false := by
  decide

/-- C5 as amended: the generator performs no progress check at all; a daily
rule with interval 0 and no end date silently fills the whole bound with
copies of the start date. -/
theorem claim5_amended_no_progress_guard (start : DateT) (n : Nat) :
    generateOccurrences ⟨RecurrenceType.daily, 0, none, none, none, none, start, none⟩ n
      = start :: List.replicate (n - 1) start := by
  show start :: genAux _ (n - 1) start = start :: List.replicate (n - 1) start
  have haux : ∀ (k : Nat) (cur : DateT),
      genAux ⟨RecurrenceType.daily, 0, none, none, none, none, start, none⟩ k cur
        = List.replicate k cur := by
    intro k
    induction k with
    | zero => intro cur; rfl
    | succ k ih =>
      intro cur
      show cur :: genAux _ k cur = cur :: List.replicate k cur
      rw [ih cur]
  rw [haux]

/-- Counterexample to C6: the end-date comparison is a full date-time
comparison, not a calendar-date one.  With start 2025-06-01 at a positive
time-of-day and endDate 2025-06-02 at midnight, the next candidate falls on
the same calendar date as the end date yet is excluded, so only the start
date is returned. -/
theorem claim6_counterexample :
    sameCalendarDate
        (stepDate ⟨RecurrenceType.daily, 1, none, none, none, none,
          ⟨2025, 6, 1, 1⟩, some ⟨2025, 6, 2, 0⟩⟩ ⟨2025, 6, 1, 1⟩)
        ⟨2025, 6, 2, 0⟩ = true ∧
    generateOccurrences ⟨RecurrenceType.daily, 1, none, none, none, none,
        ⟨2025, 6, 1, 1⟩, some ⟨2025, 6, 2, 0⟩⟩ 30
      = [⟨2025, 6, 1, 1⟩] := by
  decide

/-- C6 as amended: generation stops exactly when the count bound is reached
or the next candidate exceeds the end date under the full date-time order;
a candidate not exceeding the end date (including one exactly equal to it)
is emitted, while any candidate strictly greater — even on the same calendar
date — stops generation immediately. -/
theorem claim6_amended_stop_rule (rule : RecurrenceRule) (e : DateT) (count : Nat)
    (he : rule.endDate = some e) (hc : 2 ≤ count) :
    (DateT.ltb e (stepDate rule rule.startDate) = true →
      generateOccurrences rule count = [rule.startDate]) ∧
    (DateT.ltb e (stepDate rule rule.startDate) = false →
      (generateOccurrences rule count).take 2
        = [rule.startDate, stepDate rule rule.startDate]) := by
  constructor
  · intro h
    show rule.startDate :: genAux rule (count - 1) rule.startDate = [rule.startDate]
    rw [genAux_break rule he h (count - 1)]
  · intro h
    obtain ⟨k, hk⟩ : ∃ k, count - 1 = k + 1 := ⟨count - 2, by omega⟩
    show (rule.startDate :: genAux rule (count - 1) rule.startDate).take 2 = _
    rw [hk]
    simp only [genAux, he]
    rw [if_neg (by simp [h])]
    rfl

/-- Witness for C6's amended stop rule: the concrete rule from the
counterexample stops before its end-date calendar day. -/
theorem claim6_amended_stop_rule_witness :
    generateOccurrences ⟨RecurrenceType.daily, 1, none, none, none, none,
        ⟨2025, 6, 1, 1⟩, some ⟨2025, 6, 2, 0⟩⟩ 30
      = [⟨2025, 6, 1, 1⟩] :=
  (claim6_amended_stop_rule _ ⟨2025, 6, 2, 0⟩ 30 rfl (by omega)).1 (by decide)

/-- C9: `validate` (modelled from the spec, absent from the source) is a
total function returning the first violated invariant as a typed error:
interval 0 yields InvalidInterval, a weekly draft with an empty weekday set
yields EmptyWeekdaySet, and any draft it accepts satisfies all data-model
invariants, so no invalid rule reaches the generator through it. -/
theorem claim9_validate_spec :
    (∀ r : RecurrenceRule, r.interval = 0 →
      validate r = Except.error ValidationError.InvalidInterval) ∧
    (∀ r : RecurrenceRule, 1 ≤ r.interval → r.type = RecurrenceType.weekly →
      r.daysOfWeek = some [] →
      validate r = Except.error ValidationError.EmptyWeekdaySet) ∧
    (∀ r r' : RecurrenceRule, validate r = Except.ok r' → r' = r ∧
      1 ≤ r.interval ∧
      (r.type = RecurrenceType.weekly → ¬ r.daysOfWeek.getD [] = []) ∧
      (1 ≤ r.monthDay.getD 1 ∧ r.monthDay.getD 1 ≤ 31) ∧
      (∀ e, r.endDate = some e → DateT.ltb e r.startDate = false)) := by
  refine ⟨?_, ?_, ?_⟩
  · intro r h
    unfold validate
    rw [if_pos (by omega)]
  · intro r h1 h2 h3
    unfold validate
    rw [if_neg (by omega), if_pos ⟨h2, by rw [h3]; rfl⟩]
  · intro r r' h
    unfold validate at h
    by_cases c1 : r.interval < 1
    · rw [if_pos c1] at h
      exact Except.noConfusion h
    rw [if_neg c1] at h
    by_cases c2 : r.type = RecurrenceType.weekly ∧ r.daysOfWeek.getD [] = []
    · rw [if_pos c2] at h
      exact Except.noConfusion h
    rw [if_neg c2] at h
    by_cases c3 : r.monthDay.getD 1 < 1 ∨ 31 < r.monthDay.getD 1
    · rw [if_pos c3] at h
      exact Except.noConfusion h
    rw [if_neg c3] at h
    by_cases c4 : (r.endDate.elim false (fun e => DateT.ltb e r.startDate)) = true
    · rw [if_pos c4] at h
      exact Except.noConfusion h
    rw [if_neg c4] at h
    injection h with h'
    subst h'
    refine ⟨rfl, by omega, ?_, by omega, ?_⟩
    · intro hw hempty
      exact c2 ⟨hw, hempty⟩
    · intro e he
      rw [he] at c4
      simp only [Option.elim] at c4
      cases hb : DateT.ltb e r.startDate
      · rfl
      · exact absurd hb c4

/-- Witness for C9: a concrete interval-0 draft is rejected with
InvalidInterval. -/
theorem claim9_validate_spec_witness :
    validate ⟨RecurrenceType.daily, 0, none, none, none, none, ⟨2025, 1, 1, 0⟩, none⟩
      = Except.error ValidationError.InvalidInterval :=
  claim9_validate_spec.1 _ rfl

end Recur
